import Mathlib

/-!
Shallow embedding of `src/sonos/github_merge_queue_simulator/simulator.py`.

The Python program draws pseudo-random floats from the ambient generator
`random.random()`, one at a time.  We model the stream of draws as a function
`g : ℕ → ℚ` together with an index (the number of draws consumed so far)
threaded through the simulation state; a call to `random.random()` reads
`g idx` and increments the index.  Real-valued quantities (floats in Python)
are modelled as exact rationals.  `statistics.mean` / `statistics.median`
raise `StatisticsError` on an empty list, so `simulate_throughput` returns an
`Option`: `none` models the raised error.
-/

namespace MergeQueueSim

/-- Banker's rounding of a rational to the nearest integer (ties to even),
the rounding mode of Python's builtin `round`. -/
def roundHalfEven (q : ℚ) : ℤ :=
  let f := ⌊q⌋
  let r := q - (f : ℚ)
  if r < 1 / 2 then f
  else if 1 / 2 < r then f + 1
  else if f % 2 = 0 then f else f + 1

/-- Python's `round(q, 1)`: round to one decimal place, ties to even. -/
def round1 (q : ℚ) : ℚ := (roundHalfEven (q * 10) : ℚ) / 10

/-- Python's `statistics.mean`: arithmetic mean of a list (the Python call
raises on `[]`; callers of this definition guard for emptiness). -/
def mean (l : List ℚ) : ℚ := l.sum / (l.length : ℚ)

/-- Python's `statistics.median`: sort ascending; for odd length take the
middle element, for even length the average of the two middle elements. -/
def median (l : List ℚ) : ℚ :=
  let s := l.mergeSort (fun a b => decide (a ≤ b))
  let n := s.length
  if n % 2 = 1 then s.getD (n / 2) 0
  else (s.getD (n / 2 - 1) 0 + s.getD (n / 2) 0) / 2

/-- The inner `for _ in range(1, queue_size + 1)` scan of `simulate_throughput`:
starting at draw index `k` with `n` slots left, consume one draw per slot; a
draw `≤ failure_probability` breaks out of the loop, otherwise the slot counts
as completed.  Returns `(jobs_completed, next draw index)`. -/
def scanSlots (fp : ℚ) (g : ℕ → ℚ) : ℕ → ℕ → ℕ × ℕ
  | k, 0 => (0, k)
  | k, n + 1 =>
    if g k ≤ fp then (0, k + 1)
    else
      let r := scanSlots fp g (k + 1) n
      (r.1 + 1, r.2)

/-- The mutable accumulators of one `simulate_throughput` call, plus the
number of random draws consumed so far (`idx`). -/
structure SimState where
  totalJobsCompleted : ℕ
  totalTime : ℕ
  totalJobsLost : ℕ
  waitTimes : List ℚ
  idx : ℕ
deriving DecidableEq

/-- One iteration of the `while total_time < sim_duration` loop body:
scan the queue, account completed/lost jobs and elapsed time, and when
`jobs_completed > 0` consume one further draw to decide whether
`jobs_waiting_to_enter` inflates the line, then append the Little's-Law
wait-time sample `jobs_in_line / (jobs_completed / job_duration)`. -/
def roundStep (qs jd : ℕ) (fp : ℚ) (oc : ℕ) (op : ℚ) (g : ℕ → ℚ)
    (st : SimState) : SimState :=
  let s := scanSlots fp g st.idx qs
  let c := s.1
  let k1 := s.2
  if 0 < c then
    let jil : ℕ := qs + (if g k1 ≤ op then oc else 0)
    { totalJobsCompleted := st.totalJobsCompleted + c
      totalTime := st.totalTime + jd
      totalJobsLost := st.totalJobsLost + (qs - c)
      waitTimes := st.waitTimes ++ [(jil : ℚ) / ((c : ℚ) / (jd : ℚ))]
      idx := k1 + 1 }
  else
    { totalJobsCompleted := st.totalJobsCompleted + c
      totalTime := st.totalTime + jd
      totalJobsLost := st.totalJobsLost + (qs - c)
      waitTimes := st.waitTimes
      idx := k1 }

/-- The `while total_time < sim_duration` loop, fuelled.  Each executed round
adds `jd ≥ 1` minutes, so fuel `sd` always suffices to reach the exit
condition (proved below as `simLoop_fuel_sufficient`). -/
def simLoop (qs sd jd : ℕ) (fp : ℚ) (oc : ℕ) (op : ℚ) (g : ℕ → ℚ) :
    ℕ → SimState → SimState
  | 0, st => st
  | fuel + 1, st =>
    if st.totalTime < sd then
      simLoop qs sd jd fp oc op g fuel (roundStep qs jd fp oc op g st)
    else st

/-- Number of loop iterations actually executed, fuelled like `simLoop`. -/
def simRounds (qs sd jd : ℕ) (fp : ℚ) (oc : ℕ) (op : ℚ) (g : ℕ → ℚ) :
    ℕ → SimState → ℕ
  | 0, _ => 0
  | fuel + 1, st =>
    if st.totalTime < sd then
      simRounds qs sd jd fp oc op g fuel (roundStep qs jd fp oc op g st) + 1
    else 0

/-- Initial accumulator state, with `k` draws already consumed from `g`. -/
def initState (k : ℕ) : SimState :=
  { totalJobsCompleted := 0, totalTime := 0, totalJobsLost := 0
    waitTimes := [], idx := k }

/-- The accumulator state at loop exit of a `simulate_throughput` call whose
first fresh draw is `g k`. -/
def finalState (qs sd jd : ℕ) (fp : ℚ) (oc : ℕ) (op : ℚ) (g : ℕ → ℚ)
    (k : ℕ) : SimState :=
  simLoop qs sd jd fp oc op g sd (initState k)

/-- `simulate_throughput` starting at draw index `k`, returning the result
together with the next unconsumed draw index.  `none` models the
`StatisticsError` raised by `statistics.mean` on an empty sample list. -/
def simulateK (qs sd jd : ℕ) (fp : ℚ) (oc : ℕ) (op : ℚ) (g : ℕ → ℚ)
    (k : ℕ) : Option (ℚ × ℚ × ℚ × ℚ) × ℕ :=
  let st := finalState qs sd jd fp oc op g k
  if st.waitTimes = [] then (none, st.idx)
  else
    (some (round1 ((st.totalJobsCompleted : ℚ) / ((st.totalTime : ℚ) / 60)),
           round1 ((st.totalJobsLost : ℚ) / ((st.totalTime : ℚ) / 60)),
           round1 (mean st.waitTimes),
           round1 (median st.waitTimes)),
     st.idx)

/-- `simulate_throughput(queue_size, sim_duration, job_duration,
failure_probability, jobs_waiting_to_enter, jobs_waiting_to_enter_probability)`
on a fresh draw stream. -/
def simulate_throughput (qs sd jd : ℕ) (fp : ℚ) (oc : ℕ) (op : ℚ)
    (g : ℕ → ℚ) : Option (ℚ × ℚ × ℚ × ℚ) :=
  (simulateK qs sd jd fp oc op g 0).1

/-- The sweep loop of `main` over an explicit list of queue sizes, threading
the shared draw stream's index through successive calls.  A call that raises
(`none`) aborts the whole sweep: no row is produced for it or for any later
queue size (the exception propagates out of `main`). -/
def sweepAux (sd jd : ℕ) (fp : ℚ) (oc : ℕ) (op : ℚ) (g : ℕ → ℚ) :
    List ℕ → ℕ → List (ℕ × (ℚ × ℚ × ℚ × ℚ))
  | [], _ => []
  | q :: qrest, k =>
    match simulateK q sd jd fp oc op g k with
    | (some r, k') => (q, r) :: sweepAux sd jd fp oc op g qrest k'
    | (none, _) => []

/-- The sweep of `main`: queue sizes `range(min_queue_size, max_queue_size + 1)`,
each simulated for `sim_duration * 60` minutes. -/
def sweep (minQ maxQ sdh jd : ℕ) (fp : ℚ) (oc : ℕ) (op : ℚ) (g : ℕ → ℚ) :
    List (ℕ × (ℚ × ℚ × ℚ × ℚ)) :=
  sweepAux (sdh * 60) jd fp oc op g (List.range' minQ (maxQ + 1 - minQ)) 0

/-! ### Basic lemmas about the round scan and the round body -/

theorem scanSlots_fst_le (fp : ℚ) (g : ℕ → ℚ) :
    ∀ n k, (scanSlots fp g k n).1 ≤ n := by
  intro n
  induction n with
  | zero => intro k; simp [scanSlots]
  | succ n ih =>
    intro k
    simp only [scanSlots]
    split
    · exact Nat.zero_le _
    · exact Nat.succ_le_succ (ih (k + 1))

theorem scanSlots_no_failure (fp : ℚ) (g : ℕ → ℚ) (hg : ∀ n, ¬ g n ≤ fp) :
    ∀ n k, scanSlots fp g k n = (n, k + n) := by
  intro n
  induction n with
  | zero => intro k; simp [scanSlots]
  | succ n ih =>
    intro k
    simp [scanSlots, hg k, ih (k + 1)]
    omega

theorem scanSlots_first_fails (fp : ℚ) (g : ℕ → ℚ) (n k : ℕ)
    (h : g k ≤ fp) : scanSlots fp g k (n + 1) = (0, k + 1) := by
  simp [scanSlots, h]

theorem roundStep_totalTime (qs jd : ℕ) (fp : ℚ) (oc : ℕ) (op : ℚ)
    (g : ℕ → ℚ) (st : SimState) :
    (roundStep qs jd fp oc op g st).totalTime = st.totalTime + jd := by
  unfold roundStep
  dsimp only
  split <;> rfl

theorem roundStep_totalJobsCompleted (qs jd : ℕ) (fp : ℚ) (oc : ℕ) (op : ℚ)
    (g : ℕ → ℚ) (st : SimState) :
    (roundStep qs jd fp oc op g st).totalJobsCompleted
      = st.totalJobsCompleted + (scanSlots fp g st.idx qs).1 := by
  unfold roundStep
  dsimp only
  split <;> rfl

theorem roundStep_totalJobsLost (qs jd : ℕ) (fp : ℚ) (oc : ℕ) (op : ℚ)
    (g : ℕ → ℚ) (st : SimState) :
    (roundStep qs jd fp oc op g st).totalJobsLost
      = st.totalJobsLost + (qs - (scanSlots fp g st.idx qs).1) := by
  unfold roundStep
  dsimp only
  split <;> rfl

theorem roundStep_waitTimes_of_pos (qs jd : ℕ) (fp : ℚ) (oc : ℕ) (op : ℚ)
    (g : ℕ → ℚ) (st : SimState) (h : 0 < (scanSlots fp g st.idx qs).1) :
    (roundStep qs jd fp oc op g st).waitTimes
      = st.waitTimes ++
        [((qs + (if g (scanSlots fp g st.idx qs).2 ≤ op then oc else 0) : ℕ) : ℚ)
          / (((scanSlots fp g st.idx qs).1 : ℚ) / (jd : ℚ))] := by
  unfold roundStep
  rw [if_pos h]

theorem roundStep_idx_of_pos (qs jd : ℕ) (fp : ℚ) (oc : ℕ) (op : ℚ)
    (g : ℕ → ℚ) (st : SimState) (h : 0 < (scanSlots fp g st.idx qs).1) :
    (roundStep qs jd fp oc op g st).idx = (scanSlots fp g st.idx qs).2 + 1 := by
  unfold roundStep
  rw [if_pos h]

theorem roundStep_waitTimes_of_zero (qs jd : ℕ) (fp : ℚ) (oc : ℕ) (op : ℚ)
    (g : ℕ → ℚ) (st : SimState) (h : (scanSlots fp g st.idx qs).1 = 0) :
    (roundStep qs jd fp oc op g st).waitTimes = st.waitTimes := by
  unfold roundStep
  rw [if_neg (by omega)]

/-! ### Lemmas about the fuelled loop -/

theorem simLoop_of_exit (qs sd jd : ℕ) (fp : ℚ) (oc : ℕ) (op : ℚ)
    (g : ℕ → ℚ) (fuel : ℕ) (st : SimState) (h : ¬ st.totalTime < sd) :
    simLoop qs sd jd fp oc op g fuel st = st := by
  cases fuel with
  | zero => rfl
  | succ fuel => simp [simLoop, h]

theorem simLoop_invariant (qs sd jd : ℕ) (fp : ℚ) (oc : ℕ) (op : ℚ)
    (g : ℕ → ℚ) (P : SimState → Prop)
    (hstep : ∀ st, P st → P (roundStep qs jd fp oc op g st)) :
    ∀ fuel st, P st → P (simLoop qs sd jd fp oc op g fuel st) := by
  intro fuel
  induction fuel with
  | zero => intro st h; exact h
  | succ fuel ih =>
    intro st h
    simp only [simLoop]
    split
    · exact ih _ (hstep st h)
    · exact h

theorem simLoop_exit_reached (qs sd jd : ℕ) (fp : ℚ) (oc : ℕ) (op : ℚ)
    (g : ℕ → ℚ) (hjd : 0 < jd) :
    ∀ fuel st, sd - st.totalTime ≤ fuel →
      sd ≤ (simLoop qs sd jd fp oc op g fuel st).totalTime := by
  intro fuel
  induction fuel with
  | zero => intro st h; simp only [simLoop]; omega
  | succ fuel ih =>
    intro st h
    simp only [simLoop]
    split
    · rename_i htt
      refine ih _ ?_
      rw [roundStep_totalTime]
      omega
    · omega

theorem simLoop_fuel_add (qs sd jd : ℕ) (fp : ℚ) (oc : ℕ) (op : ℚ)
    (g : ℕ → ℚ) (hjd : 0 < jd) :
    ∀ fuel st m, sd - st.totalTime ≤ fuel →
      simLoop qs sd jd fp oc op g (fuel + m) st
        = simLoop qs sd jd fp oc op g fuel st := by
  intro fuel
  induction fuel with
  | zero =>
    intro st m h
    have hex : ¬ st.totalTime < sd := by omega
    rw [simLoop_of_exit _ _ _ _ _ _ _ _ _ hex, simLoop_of_exit _ _ _ _ _ _ _ _ _ hex]
  | succ fuel ih =>
    intro st m h
    by_cases htt : st.totalTime < sd
    · have : fuel + 1 + m = (fuel + m) + 1 := by omega
      rw [this]
      simp only [simLoop, if_pos htt]
      refine ih _ m ?_
      rw [roundStep_totalTime]
      omega
    · rw [simLoop_of_exit _ _ _ _ _ _ _ _ _ htt, simLoop_of_exit _ _ _ _ _ _ _ _ _ htt]

theorem ceilDiv_step (jd m : ℕ) (hjd : 0 < jd) (hm : 0 < m) :
    (m + jd - 1) / jd = (m - jd + jd - 1) / jd + 1 := by
  rcases le_or_lt jd m with h | h
  · have heq : m + jd - 1 = (m - jd + jd - 1) + jd := by omega
    rw [heq, Nat.add_div_right _ hjd]
  · have h1 : (m + jd - 1) / jd = 1 := by
      apply Nat.div_eq_of_lt_le <;> omega
    have h0 : m - jd = 0 := by omega
    have h2 : (0 + jd - 1) / jd = 0 := Nat.div_eq_of_lt (by omega)
    rw [h1, h0, h2]

theorem simLoop_totalTime (qs sd jd : ℕ) (fp : ℚ) (oc : ℕ) (op : ℚ)
    (g : ℕ → ℚ) (hjd : 0 < jd) :
    ∀ fuel st, sd - st.totalTime ≤ fuel →
      (simLoop qs sd jd fp oc op g fuel st).totalTime
        = st.totalTime + ((sd - st.totalTime + jd - 1) / jd) * jd := by
  intro fuel
  induction fuel with
  | zero =>
    intro st h
    have h0 : sd - st.totalTime = 0 := by omega
    have h2 : (0 + jd - 1) / jd = 0 := Nat.div_eq_of_lt (by omega)
    simp only [simLoop, h0, h2, Nat.zero_mul, Nat.add_zero]
  | succ fuel ih =>
    intro st h
    simp only [simLoop]
    split
    · rename_i htt
      rw [ih _ (by rw [roundStep_totalTime]; omega), roundStep_totalTime]
      have hm : 0 < sd - st.totalTime := by omega
      have hsub : sd - (st.totalTime + jd) = (sd - st.totalTime) - jd := by omega
      rw [hsub, ceilDiv_step jd (sd - st.totalTime) hjd hm, Nat.succ_mul]
      omega
    · rename_i htt
      have h0 : sd - st.totalTime = 0 := by omega
      have h2 : (0 + jd - 1) / jd = 0 := Nat.div_eq_of_lt (by omega)
      rw [h0, h2]
      omega

theorem simRounds_eq (qs sd jd : ℕ) (fp : ℚ) (oc : ℕ) (op : ℚ)
    (g : ℕ → ℚ) (hjd : 0 < jd) :
    ∀ fuel st, sd - st.totalTime ≤ fuel →
      simRounds qs sd jd fp oc op g fuel st
        = (sd - st.totalTime + jd - 1) / jd := by
  intro fuel
  induction fuel with
  | zero =>
    intro st h
    have h0 : sd - st.totalTime = 0 := by omega
    have h2 : (0 + jd - 1) / jd = 0 := Nat.div_eq_of_lt (by omega)
    simp only [simRounds, h0, h2]
  | succ fuel ih =>
    intro st h
    simp only [simRounds]
    split
    · rename_i htt
      rw [ih _ (by rw [roundStep_totalTime]; omega), roundStep_totalTime]
      have hm : 0 < sd - st.totalTime := by omega
      have hsub : sd - (st.totalTime + jd) = (sd - st.totalTime) - jd := by omega
      rw [hsub, ceilDiv_step jd (sd - st.totalTime) hjd hm]
    · rename_i htt
      have h0 : sd - st.totalTime = 0 := by omega
      have h2 : (0 + jd - 1) / jd = 0 := Nat.div_eq_of_lt (by omega)
      rw [h0, h2]

/-! ### Lower bounds on mean and median -/

theorem le_mean_of_forall_le (l : List ℚ) (a : ℚ) (hne : l ≠ [])
    (h : ∀ x ∈ l, a ≤ x) : a ≤ mean l := by
  have hlen : 0 < l.length := List.length_pos.mpr hne
  have hlenQ : (0 : ℚ) < (l.length : ℚ) := by exact_mod_cast hlen
  rw [mean, le_div_iff₀ hlenQ]
  have hs := List.card_nsmul_le_sum l a h
  rw [nsmul_eq_mul] at hs
  linarith [hs]

theorem le_median_of_forall_le (l : List ℚ) (a : ℚ) (hne : l ≠ [])
    (h : ∀ x ∈ l, a ≤ x) : a ≤ median l := by
  have hmem : ∀ x ∈ l.mergeSort (fun a b => decide (a ≤ b)), a ≤ x :=
    fun x hx => h x (List.mem_mergeSort.mp hx)
  have hlen : 0 < (l.mergeSort (fun a b => decide (a ≤ b))).length := by
    rw [List.length_mergeSort]
    exact List.length_pos.mpr hne
  rw [median]
  split
  · rename_i hodd
    have hb : (l.mergeSort (fun a b => decide (a ≤ b))).length / 2
        < (l.mergeSort (fun a b => decide (a ≤ b))).length := by omega
    rw [List.getD_eq_getElem _ _ hb]
    exact hmem _ (List.getElem_mem _)
  · rename_i heven
    have h2 : 2 ≤ (l.mergeSort (fun a b => decide (a ≤ b))).length := by omega
    have hb1 : (l.mergeSort (fun a b => decide (a ≤ b))).length / 2 - 1
        < (l.mergeSort (fun a b => decide (a ≤ b))).length := by omega
    have hb2 : (l.mergeSort (fun a b => decide (a ≤ b))).length / 2
        < (l.mergeSort (fun a b => decide (a ≤ b))).length := by omega
    rw [List.getD_eq_getElem _ _ hb1, List.getD_eq_getElem _ _ hb2]
    have m1 := hmem _ (List.getElem_mem hb1)
    have m2 := hmem _ (List.getElem_mem hb2)
    linarith

/-! ### Claim theorems -/

/-- C1: for every valid configuration and every draw stream, in every round
the completed-job count lies in `[0, queueSize]`, the lost count recorded is
`queueSize - jobsCompleted`, and so `jobsCompleted + jobsLost = queueSize`. -/
theorem round_accounting_invariant (qs sd jd oc : ℕ) (fp op : ℚ)
    (g : ℕ → ℚ) (st : SimState)
    (hqs : 1 ≤ qs) (hjd : 0 < jd) (hsd : 0 < sd)
    (hfp0 : 0 ≤ fp) (hfp1 : fp ≤ 1) (hop0 : 0 ≤ op) (hop1 : op ≤ 1) :
    (scanSlots fp g st.idx qs).1 ≤ qs ∧
    (roundStep qs jd fp oc op g st).totalJobsCompleted
      = st.totalJobsCompleted + (scanSlots fp g st.idx qs).1 ∧
    (roundStep qs jd fp oc op g st).totalJobsLost
      = st.totalJobsLost + (qs - (scanSlots fp g st.idx qs).1) ∧
    (scanSlots fp g st.idx qs).1 + (qs - (scanSlots fp g st.idx qs).1) = qs := by
  have hle := scanSlots_fst_le fp g qs st.idx
  exact ⟨hle, roundStep_totalJobsCompleted qs jd fp oc op g st,
    roundStep_totalJobsLost qs jd fp oc op g st, by omega⟩

/-- Witness for C1 at `queueSize = 2`, `jobDuration = 1`, `simDuration = 5`,
`failureProbability = 1/2`, constant draw `3/4`, initial state. -/
theorem round_accounting_invariant_witness :
    (scanSlots (1/2) (fun _ => 3/4) (initState 0).idx 2).1 ≤ 2 ∧
    (roundStep 2 1 (1/2) 0 (1/2) (fun _ => 3/4) (initState 0)).totalJobsCompleted
      = (initState 0).totalJobsCompleted
        + (scanSlots (1/2) (fun _ => 3/4) (initState 0).idx 2).1 ∧
    (roundStep 2 1 (1/2) 0 (1/2) (fun _ => 3/4) (initState 0)).totalJobsLost
      = (initState 0).totalJobsLost
        + (2 - (scanSlots (1/2) (fun _ => 3/4) (initState 0).idx 2).1) ∧
    (scanSlots (1/2) (fun _ => 3/4) (initState 0).idx 2).1
      + (2 - (scanSlots (1/2) (fun _ => 3/4) (initState 0).idx 2).1) = 2 :=
  round_accounting_invariant 2 5 1 0 (1/2) (1/2) (fun _ => 3/4) (initState 0)
    (by norm_num) (by norm_num) (by norm_num) (by norm_num) (by norm_num)
    (by norm_num) (by norm_num)

/-- C2: with positive `jobDuration` and `simDuration` the round loop
terminates; the number of rounds executed is `⌈simDuration / jobDuration⌉`
(as naturals, `(sd + jd - 1) / jd`), the elapsed time at exit is
`rounds * jobDuration ≥ simDuration`, and giving the loop any more fuel than
`simDuration` changes nothing (the exit condition has been reached). -/
theorem rounds_and_elapsed_time (qs sd jd oc : ℕ) (fp op : ℚ) (g : ℕ → ℚ)
    (hjd : 0 < jd) (hsd : 0 < sd) :
    simRounds qs sd jd fp oc op g sd (initState 0) = (sd + jd - 1) / jd ∧
    (((sd + jd - 1) / jd : ℕ) : ℤ) = ⌈(sd : ℚ) / (jd : ℚ)⌉ ∧
    (finalState qs sd jd fp oc op g 0).totalTime = ((sd + jd - 1) / jd) * jd ∧
    sd ≤ (finalState qs sd jd fp oc op g 0).totalTime ∧
    ∀ fuel, sd ≤ fuel →
      simLoop qs sd jd fp oc op g fuel (initState 0)
        = finalState qs sd jd fp oc op g 0 := by
  have hinit : (initState 0).totalTime = 0 := rfl
  have hbound : sd - (initState 0).totalTime ≤ sd := by omega
  have h1 := simRounds_eq qs sd jd fp oc op g hjd sd (initState 0) hbound
  rw [hinit, Nat.sub_zero] at h1
  have h2 := simLoop_totalTime qs sd jd fp oc op g hjd sd (initState 0) hbound
  rw [hinit, Nat.sub_zero, Nat.zero_add] at h2
  have h3 := simLoop_exit_reached qs sd jd fp oc op g hjd sd (initState 0) hbound
  have hjdQ : (0 : ℚ) < (jd : ℚ) := by exact_mod_cast hjd
  refine ⟨h1, ?_, h2, h3, ?_⟩
  · symm
    rw [Int.ceil_eq_iff]
    have hub : ((sd + jd - 1) / jd) * jd ≤ sd + jd - 1 := Nat.div_mul_le_self _ _
    have hcast : (((sd + jd - 1) / jd : ℕ) : ℚ) * (jd : ℚ) ≤ ((sd + jd - 1 : ℕ) : ℚ) := by
      exact_mod_cast hub
    have hclose : ((sd + jd - 1 : ℕ) : ℚ) < (sd : ℚ) + (jd : ℚ) := by
      have hlt : sd + jd - 1 < sd + jd := by omega
      exact_mod_cast hlt
    have hlb : sd ≤ ((sd + jd - 1) / jd) * jd := by rw [← h2]; exact h3
    constructor
    · rw [Int.cast_natCast, lt_div_iff₀ hjdQ]
      have hexp : ((((sd + jd - 1) / jd : ℕ) : ℚ) - 1) * (jd : ℚ)
          = (((sd + jd - 1) / jd : ℕ) : ℚ) * (jd : ℚ) - (jd : ℚ) := by ring
      rw [hexp]
      linarith
    · rw [Int.cast_natCast, div_le_iff₀ hjdQ]
      exact_mod_cast hlb
  · intro fuel hfuel
    have : fuel = sd + (fuel - sd) := by omega
    rw [this, simLoop_fuel_add qs sd jd fp oc op g hjd sd (initState 0) (fuel - sd) hbound]
    rfl

/-- Witness for C2 at `queueSize = 1`, `simDuration = 10`, `jobDuration = 3`:
4 rounds, 12 minutes of elapsed time, and extra fuel is irrelevant. -/
theorem rounds_and_elapsed_time_witness :
    simRounds 1 10 3 (1/2) 0 (1/2) (fun _ => 3/4) 10 (initState 0) = 4 ∧
    (((10 + 3 - 1) / 3 : ℕ) : ℤ) = ⌈(10 : ℚ) / (3 : ℚ)⌉ ∧
    (finalState 1 10 3 (1/2) 0 (1/2) (fun _ => 3/4) 0).totalTime = 12 ∧
    10 ≤ (finalState 1 10 3 (1/2) 0 (1/2) (fun _ => 3/4) 0).totalTime ∧
    simLoop 1 10 3 (1/2) 0 (1/2) (fun _ => 3/4) 25 (initState 0)
      = finalState 1 10 3 (1/2) 0 (1/2) (fun _ => 3/4) 0 := by
  obtain ⟨h1, h2, h3, h4, h5⟩ :=
    rounds_and_elapsed_time 1 10 3 0 (1/2) (1/2) (fun _ => 3/4)
      (by norm_num) (by norm_num)
  refine ⟨by rw [h1], h2, by rw [h3], h4, h5 25 (by norm_num)⟩

/-! ### Unfolding lemmas for the aggregation step -/

theorem simulateK_of_no_samples (qs sd jd : ℕ) (fp : ℚ) (oc : ℕ) (op : ℚ)
    (g : ℕ → ℚ) (k : ℕ) (h : (finalState qs sd jd fp oc op g k).waitTimes = []) :
    simulateK qs sd jd fp oc op g k = (none, (finalState qs sd jd fp oc op g k).idx) := by
  unfold simulateK
  rw [if_pos h]

theorem simulateK_of_samples (qs sd jd : ℕ) (fp : ℚ) (oc : ℕ) (op : ℚ)
    (g : ℕ → ℚ) (k : ℕ) (h : (finalState qs sd jd fp oc op g k).waitTimes ≠ []) :
    simulateK qs sd jd fp oc op g k
      = (some (round1 (((finalState qs sd jd fp oc op g k).totalJobsCompleted : ℚ)
                  / (((finalState qs sd jd fp oc op g k).totalTime : ℚ) / 60)),
               round1 (((finalState qs sd jd fp oc op g k).totalJobsLost : ℚ)
                  / (((finalState qs sd jd fp oc op g k).totalTime : ℚ) / 60)),
               round1 (mean (finalState qs sd jd fp oc op g k).waitTimes),
               round1 (median (finalState qs sd jd fp oc op g k).waitTimes)),
         (finalState qs sd jd fp oc op g k).idx) := by
  unfold simulateK
  rw [if_neg h]

/-- C3: in every round with `jobsCompleted > 0` exactly one wait-time sample
is appended, equal to `effectivePopulation / (jobsCompleted / jobDuration)`
where the effective population is `queueSize + overflowCount` when the round's
single fresh overflow draw is at or below `overflowProbability` and
`queueSize` otherwise (and that one draw is consumed); a round with
`jobsCompleted = 0` appends nothing; and with `overflowProbability = 1` and
draws in `[0,1)` every recorded sample uses population
`queueSize + overflowCount`. -/
theorem wait_sample_per_round (qs sd jd oc : ℕ) (fp op : ℚ) (g : ℕ → ℚ) :
    (∀ st : SimState, 0 < (scanSlots fp g st.idx qs).1 →
      (roundStep qs jd fp oc op g st).waitTimes
        = st.waitTimes ++
          [((qs + (if g (scanSlots fp g st.idx qs).2 ≤ op then oc else 0) : ℕ) : ℚ)
            / (((scanSlots fp g st.idx qs).1 : ℚ) / (jd : ℚ))] ∧
      (roundStep qs jd fp oc op g st).idx = (scanSlots fp g st.idx qs).2 + 1) ∧
    (∀ st : SimState, (scanSlots fp g st.idx qs).1 = 0 →
      (roundStep qs jd fp oc op g st).waitTimes = st.waitTimes) ∧
    (op = 1 → (∀ n, 0 ≤ g n ∧ g n < 1) →
      ∀ x ∈ (finalState qs sd jd fp oc op g 0).waitTimes,
        ∃ c : ℕ, 1 ≤ c ∧ c ≤ qs ∧
          x = ((qs + oc : ℕ) : ℚ) / ((c : ℚ) / (jd : ℚ))) := by
  refine ⟨fun st h => ⟨roundStep_waitTimes_of_pos qs jd fp oc op g st h,
      roundStep_idx_of_pos qs jd fp oc op g st h⟩,
    fun st h => roundStep_waitTimes_of_zero qs jd fp oc op g st h, ?_⟩
  intro hop hg
  have hinv := simLoop_invariant qs sd jd fp oc op g
    (fun st => ∀ x ∈ st.waitTimes,
      ∃ c : ℕ, 1 ≤ c ∧ c ≤ qs ∧ x = ((qs + oc : ℕ) : ℚ) / ((c : ℚ) / (jd : ℚ)))
    ?_ sd (initState 0) ?_
  · exact hinv
  · intro st hP
    by_cases hc : 0 < (scanSlots fp g st.idx qs).1
    · rw [roundStep_waitTimes_of_pos qs jd fp oc op g st hc]
      intro x hx
      rcases List.mem_append.mp hx with hold | hnew
      · exact hP x hold
      · have hx1 : x = ((qs + (if g (scanSlots fp g st.idx qs).2 ≤ op then oc else 0) : ℕ) : ℚ)
            / (((scanSlots fp g st.idx qs).1 : ℚ) / (jd : ℚ)) := List.mem_singleton.mp hnew
        have hdraw : g (scanSlots fp g st.idx qs).2 ≤ op := by
          rw [hop]
          exact le_of_lt (hg _).2
        rw [if_pos hdraw] at hx1
        exact ⟨(scanSlots fp g st.idx qs).1, hc, scanSlots_fst_le fp g qs st.idx, hx1⟩
    · rw [roundStep_waitTimes_of_zero qs jd fp oc op g st (by omega)]
      exact hP
  · intro x hx
    simp [initState] at hx

/-- Witness for C3 at `queueSize = 2`, `jobDuration = 3`,
`failureProbability = 1/2`, `overflowCount = 4`, `overflowProbability = 1`,
constant draw `3/4`: the first round appends the single sample
`(2 + 4) / (2 / 3) = 9`, and every recorded sample of the run uses the
inflated population `2 + 4`. -/
theorem wait_sample_per_round_witness :
    ((roundStep 2 3 (1/2) 4 1 (fun _ => 3/4) (initState 0)).waitTimes
      = (initState 0).waitTimes ++
        [((2 + (if (fun _ => (3:ℚ)/4) (scanSlots (1/2) (fun _ => (3:ℚ)/4) (initState 0).idx 2).2 ≤ 1
            then 4 else 0) : ℕ) : ℚ)
          / (((scanSlots (1/2) (fun _ => (3:ℚ)/4) (initState 0).idx 2).1 : ℚ) / ((3 : ℕ) : ℚ))]) ∧
    (∃ c : ℕ, 1 ≤ c ∧ c ≤ 2 ∧
      (9 : ℚ) = ((2 + 4 : ℕ) : ℚ) / ((c : ℚ) / ((3 : ℕ) : ℚ))) := by
  obtain ⟨h1, h2, h3⟩ := wait_sample_per_round 2 6 3 4 (1/2) 1 (fun _ => 3/4)
  exact ⟨(h1 (initState 0) (by norm_num [scanSlots, initState])).1,
    h3 rfl (fun n => by norm_num) 9
      (by norm_num [finalState, simLoop, roundStep, scanSlots, initState])⟩

/-- C4 counterexample: the draw value `0` lies in `[0,1)`, yet with
`failureProbability = 0` the comparison `random.random() <= 0` succeeds on
it, so on the constantly-`0` draw stream the first slot fails every round:
with `queueSize = simDuration = jobDuration = 1` the run loses 1 job in its
only round and raises (returns no tuple) instead of returning
`round(1/1*60, 1) = 60.0`. -/
theorem zero_failure_prob_cex :
    ((0 : ℚ) ≤ 0 ∧ (0 : ℚ) < 1) ∧
    (finalState 1 1 1 0 0 0 (fun _ => 0) 0).totalJobsLost = 1 ∧
    simulate_throughput 1 1 1 0 0 0 (fun _ => 0) = none := by
  refine ⟨⟨le_refl 0, by norm_num⟩, by decide, by decide⟩

/-- A run in which no draw falls at or below the failure threshold loses no
job, keeps `totalCompleted * jd = totalElapsed * qs` balanced, and records a
wait-time sample every round. -/
theorem no_failure_run (qs sd jd : ℕ) (fp : ℚ) (oc : ℕ) (op : ℚ)
    (g : ℕ → ℚ) (k : ℕ) (hqs : 1 ≤ qs) (hjd : 0 < jd) (hsd : 0 < sd)
    (hnf : ∀ n, ¬ g n ≤ fp) :
    (finalState qs sd jd fp oc op g k).totalJobsLost = 0 ∧
    (finalState qs sd jd fp oc op g k).totalJobsCompleted * jd
      = (finalState qs sd jd fp oc op g k).totalTime * qs ∧
    (finalState qs sd jd fp oc op g k).waitTimes ≠ [] := by
  have hscan : ∀ j, scanSlots fp g j qs = (qs, j + qs) :=
    fun j => scanSlots_no_failure fp g hnf qs j
  have hinv := simLoop_invariant qs sd jd fp oc op g
    (fun st => st.totalJobsLost = 0 ∧
      st.totalJobsCompleted * jd = st.totalTime * qs ∧
      (0 < st.totalTime → st.waitTimes ≠ []))
    ?_ sd (initState k) ⟨rfl, by simp [initState], fun h => by simp [initState] at h⟩
  · obtain ⟨hlost, hbal, hwts⟩ := hinv
    have hexit := simLoop_exit_reached qs sd jd fp oc op g hjd sd (initState k)
      (by omega)
    have httpos : 0 < (finalState qs sd jd fp oc op g k).totalTime := by
      have : sd ≤ (finalState qs sd jd fp oc op g k).totalTime := hexit
      omega
    exact ⟨hlost, hbal, hwts httpos⟩
  · intro st ⟨h1, h2, h3⟩
    have hc : (scanSlots fp g st.idx qs).1 = qs := by rw [hscan st.idx]
    have hcpos : 0 < (scanSlots fp g st.idx qs).1 := by omega
    refine ⟨?_, ?_, ?_⟩
    · rw [roundStep_totalJobsLost, hc, Nat.sub_self, Nat.add_zero, h1]
    · rw [roundStep_totalJobsCompleted, roundStep_totalTime, hc,
        Nat.add_mul, Nat.add_mul, h2]
      ring
    · intro _
      rw [roundStep_waitTimes_of_pos qs jd fp oc op g st hcpos]
      simp

/-- A run in which no draw falls at or below the failure threshold returns a
result tuple (does not raise). -/
theorem simulateK_ne_none_of_no_failure (qs sd jd : ℕ) (fp : ℚ) (oc : ℕ)
    (op : ℚ) (g : ℕ → ℚ) (k : ℕ) (hqs : 1 ≤ qs) (hjd : 0 < jd) (hsd : 0 < sd)
    (hnf : ∀ n, ¬ g n ≤ fp) :
    (simulateK qs sd jd fp oc op g k).1 ≠ none := by
  have hne := (no_failure_run qs sd jd fp oc op g k hqs hjd hsd hnf).2.2
  rw [simulateK_of_samples qs sd jd fp oc op g k hne]
  simp

/-- C4 (amended): with `failureProbability = 0` and every draw strictly
positive (draws in `(0,1)`; the code's `<=` comparison makes a draw of
exactly `0` fail even at probability `0`), every round completes all
`queueSize` slots, no job is ever lost, and the returned throughput equals
`round(queueSize / jobDuration * 60, 1)` exactly. -/
theorem zero_failure_prob_amended (qs sd jd oc : ℕ) (op : ℚ) (g : ℕ → ℚ)
    (hqs : 1 ≤ qs) (hjd : 0 < jd) (hsd : 0 < sd) (hg : ∀ n, 0 < g n) :
    (∀ k, (scanSlots 0 g k qs).1 = qs) ∧
    (finalState qs sd jd 0 oc op g 0).totalJobsLost = 0 ∧
    ∃ l m md, simulate_throughput qs sd jd 0 oc op g
      = some (round1 ((qs : ℚ) / (jd : ℚ) * 60), l, m, md) := by
  have hnf : ∀ n, ¬ g n ≤ (0 : ℚ) := fun n => not_le.mpr (hg n)
  have hscan : ∀ k, scanSlots 0 g k qs = (qs, k + qs) :=
    fun k => scanSlots_no_failure 0 g hnf qs k
  obtain ⟨hlost, hbal, hne⟩ := no_failure_run qs sd jd 0 oc op g 0 hqs hjd hsd hnf
  have hexit := simLoop_exit_reached qs sd jd 0 oc op g hjd sd (initState 0)
    (by omega)
  have httpos : 0 < (finalState qs sd jd 0 oc op g 0).totalTime := by
    have : sd ≤ (finalState qs sd jd 0 oc op g 0).totalTime := hexit
    omega
  · refine ⟨fun k => by rw [hscan k], hlost, ?_⟩
    have heq := simulateK_of_samples qs sd jd 0 oc op g 0 hne
    have hdiv : ((finalState qs sd jd 0 oc op g 0).totalJobsCompleted : ℚ)
        / (((finalState qs sd jd 0 oc op g 0).totalTime : ℚ) / 60)
        = (qs : ℚ) / (jd : ℚ) * 60 := by
      have hbalQ : ((finalState qs sd jd 0 oc op g 0).totalJobsCompleted : ℚ) * (jd : ℚ)
          = ((finalState qs sd jd 0 oc op g 0).totalTime : ℚ) * (qs : ℚ) := by
        exact_mod_cast hbal
      have httQ : ((finalState qs sd jd 0 oc op g 0).totalTime : ℚ) ≠ 0 := by
        have : (0 : ℚ) < ((finalState qs sd jd 0 oc op g 0).totalTime : ℚ) := by
          exact_mod_cast httpos
        exact ne_of_gt this
      have hjdQ : ((jd : ℕ) : ℚ) ≠ 0 := by
        have : (0 : ℚ) < ((jd : ℕ) : ℚ) := by exact_mod_cast hjd
        exact ne_of_gt this
      field_simp
      linear_combination (60 : ℚ) * hbalQ
    refine ⟨round1 (((finalState qs sd jd 0 oc op g 0).totalJobsLost : ℚ)
        / (((finalState qs sd jd 0 oc op g 0).totalTime : ℚ) / 60)),
      round1 (mean (finalState qs sd jd 0 oc op g 0).waitTimes),
      round1 (median (finalState qs sd jd 0 oc op g 0).waitTimes), ?_⟩
    unfold simulate_throughput
    rw [heq]
    dsimp only
    rw [hdiv]

/-- Witness for the amended C4 at `queueSize = 2`, `simDuration = 5`,
`jobDuration = 3`, constant draw `3/4`: nothing lost and throughput
`round(2/3*60, 1) = 40.0`. -/
theorem zero_failure_prob_amended_witness :
    (scanSlots 0 (fun _ => (3:ℚ)/4) 7 2).1 = 2 ∧
    (finalState 2 5 3 0 0 0 (fun _ => 3/4) 0).totalJobsLost = 0 ∧
    ∃ l m md, simulate_throughput 2 5 3 0 0 0 (fun _ => 3/4)
      = some (round1 ((2 : ℚ) / (3 : ℚ) * 60), l, m, md) := by
  obtain ⟨h1, h2, h3⟩ := zero_failure_prob_amended 2 5 3 0 0 (fun _ => 3/4)
    (by norm_num) (by norm_num) (by norm_num) (fun n => by norm_num)
  exact ⟨h1 7, h2, h3⟩

/-- C5: with `failureProbability = 1` every round completes zero slots (the
scan fails on its very first draw), the wait-time sample list is empty at
loop exit, and the call raises (`none`) instead of returning a tuple. -/
theorem certain_failure_raises (qs sd jd oc : ℕ) (op : ℚ) (g : ℕ → ℚ)
    (hqs : 1 ≤ qs) (hjd : 0 < jd) (hsd : 0 < sd)
    (hg : ∀ n, 0 ≤ g n ∧ g n < 1) :
    (∀ k, scanSlots 1 g k qs = (0, k + 1)) ∧
    (finalState qs sd jd 1 oc op g 0).waitTimes = [] ∧
    simulate_throughput qs sd jd 1 oc op g = none := by
  obtain ⟨m, rfl⟩ : ∃ m, qs = m + 1 := ⟨qs - 1, by omega⟩
  have hscan : ∀ k, scanSlots 1 g k (m + 1) = (0, k + 1) :=
    fun k => scanSlots_first_fails 1 g m k (le_of_lt (hg k).2)
  have hinv := simLoop_invariant (m + 1) sd jd 1 oc op g
    (fun st => st.waitTimes = []) ?_ sd (initState 0) rfl
  · refine ⟨hscan, hinv, ?_⟩
    unfold simulate_throughput
    rw [simulateK_of_no_samples (m + 1) sd jd 1 oc op g 0 hinv]
  · intro st hst
    have hc : (scanSlots 1 g st.idx (m + 1)).1 = 0 := by rw [hscan st.idx]
    rw [roundStep_waitTimes_of_zero (m + 1) jd 1 oc op g st hc]
    exact hst

/-- Witness for C5 at `queueSize = 1`, `simDuration = 2`,
`jobDuration = 1`, constant draw `1/2`. -/
theorem certain_failure_raises_witness :
    scanSlots 1 (fun _ => (1:ℚ)/2) 5 1 = (0, 5 + 1) ∧
    (finalState 1 2 1 1 0 0 (fun _ => 1/2) 0).waitTimes = [] ∧
    simulate_throughput 1 2 1 1 0 0 (fun _ => 1/2) = none := by
  obtain ⟨h1, h2, h3⟩ := certain_failure_raises 1 2 1 0 0 (fun _ => 1/2)
    (by norm_num) (by norm_num) (by norm_num) (fun n => by norm_num)
  exact ⟨h1 5, h2, h3⟩

/-- C6: whenever `simulate_throughput` returns (the wait-sample list at loop
exit is non-empty), the returned tuple is exactly the four aggregates
`round(totalCompleted/(totalElapsed/60), 1)`,
`round(totalLost/(totalElapsed/60), 1)`, `round(mean(waitSamples), 1)` and
`round(median(waitSamples), 1)`. -/
theorem result_tuple_formula (qs sd jd : ℕ) (fp : ℚ) (oc : ℕ) (op : ℚ)
    (g : ℕ → ℚ) (h : (finalState qs sd jd fp oc op g 0).waitTimes ≠ []) :
    simulate_throughput qs sd jd fp oc op g
      = some (round1 (((finalState qs sd jd fp oc op g 0).totalJobsCompleted : ℚ)
            / (((finalState qs sd jd fp oc op g 0).totalTime : ℚ) / 60)),
          round1 (((finalState qs sd jd fp oc op g 0).totalJobsLost : ℚ)
            / (((finalState qs sd jd fp oc op g 0).totalTime : ℚ) / 60)),
          round1 (mean (finalState qs sd jd fp oc op g 0).waitTimes),
          round1 (median (finalState qs sd jd fp oc op g 0).waitTimes)) := by
  unfold simulate_throughput
  rw [simulateK_of_samples qs sd jd fp oc op g 0 h]

/-- Witness for C6 at `queueSize = simDuration = jobDuration = 1`,
`failureProbability = -1`, constant draw `0` (one round, one sample). -/
theorem result_tuple_formula_witness :
    simulate_throughput 1 1 1 (-1) 0 0 (fun _ => 0)
      = some (round1 (((finalState 1 1 1 (-1) 0 0 (fun _ => 0) 0).totalJobsCompleted : ℚ)
            / (((finalState 1 1 1 (-1) 0 0 (fun _ => 0) 0).totalTime : ℚ) / 60)),
          round1 (((finalState 1 1 1 (-1) 0 0 (fun _ => 0) 0).totalJobsLost : ℚ)
            / (((finalState 1 1 1 (-1) 0 0 (fun _ => 0) 0).totalTime : ℚ) / 60)),
          round1 (mean (finalState 1 1 1 (-1) 0 0 (fun _ => 0) 0).waitTimes),
          round1 (median (finalState 1 1 1 (-1) 0 0 (fun _ => 0) 0).waitTimes)) :=
  result_tuple_formula 1 1 1 (-1) 0 0 (fun _ => 0)
    (by norm_num [finalState, simLoop, roundStep, scanSlots, initState])

/-- The sweep loop over a list of queue sizes, under the assumption that
every invocation returns a result: it yields one record per requested size,
in order, and each record's payload is a Simulation Core result for that
size. -/
theorem sweepAux_complete (sd jd : ℕ) (fp : ℚ) (oc : ℕ) (op : ℚ)
    (g : ℕ → ℚ) :
    ∀ (L : List ℕ) (k : ℕ),
      (∀ q ∈ L, ∀ j, (simulateK q sd jd fp oc op g j).1 ≠ none) →
      (sweepAux sd jd fp oc op g L k).map Prod.fst = L ∧
      ∀ p ∈ sweepAux sd jd fp oc op g L k,
        ∃ j j', simulateK p.1 sd jd fp oc op g j = (some p.2, j') := by
  intro L
  induction L with
  | nil =>
    intro k h
    exact ⟨rfl, fun p hp => absurd hp (List.not_mem_nil p)⟩
  | cons q L ih =>
    intro k h
    obtain ⟨r, k', hr⟩ : ∃ r k', simulateK q sd jd fp oc op g k = (some r, k') := by
      have hne := h q (List.mem_cons_self q L) k
      rcases hsk : simulateK q sd jd fp oc op g k with ⟨o, k'⟩
      cases o with
      | none =>
        rw [hsk] at hne
        exact absurd rfl hne
      | some r => exact ⟨r, k', rfl⟩
    have hstep : sweepAux sd jd fp oc op g (q :: L) k
        = (q, r) :: sweepAux sd jd fp oc op g L k' := by
      show (match simulateK q sd jd fp oc op g k with
        | (some r, k') => (q, r) :: sweepAux sd jd fp oc op g L k'
        | (none, _) => []) = (q, r) :: sweepAux sd jd fp oc op g L k'
      rw [hr]
    obtain ⟨ih1, ih2⟩ := ih k' fun x hx j => h x (List.mem_cons_of_mem q hx) j
    constructor
    · rw [hstep, List.map_cons, ih1]
    · intro p hp
      rw [hstep] at hp
      rcases List.mem_cons.mp hp with hpe | hpm
      · subst hpe
        exact ⟨k, k', hr⟩
      · exact ih2 p hpm

/-- C7 counterexample: the sweep does NOT always produce one record per
queue size.  With `failureProbability = 1` (a valid configuration) and the
constantly-`0` draw stream, the single requested invocation
(`minQueueSize = maxQueueSize = 1`, one simulated hour, `jobDuration = 1`)
raises the degenerate-sample error, the exception propagates out of the
sweep loop, and no record is produced for queue size 1. -/
theorem sweep_one_record_cex :
    (sweep 1 1 1 1 1 0 0 (fun _ => 0)).map Prod.fst ≠ List.range' 1 (1 + 1 - 1) := by
  decide

/-- C7 (amended): provided every invocation returns a result (none raises
the degenerate-sample error), the sweep driver iterates `queueSize` from
`minQueueSize` to `maxQueueSize` inclusive in ascending order, produces one
record per queue size in that order, and each record is a Simulation Core
result for `simDuration = simDurationHours * 60`.  (An invocation that
raises aborts the sweep, so the unconditional claim fails; see the
counterexample.) -/
theorem sweep_driver_amended (minQ maxQ sdh jd : ℕ) (fp : ℚ) (oc : ℕ)
    (op : ℚ) (g : ℕ → ℚ)
    (hok : ∀ q ∈ List.range' minQ (maxQ + 1 - minQ), ∀ j,
      (simulateK q (sdh * 60) jd fp oc op g j).1 ≠ none) :
    (sweep minQ maxQ sdh jd fp oc op g).map Prod.fst
      = List.range' minQ (maxQ + 1 - minQ) ∧
    List.Pairwise (· < ·) ((sweep minQ maxQ sdh jd fp oc op g).map Prod.fst) ∧
    ∀ p ∈ sweep minQ maxQ sdh jd fp oc op g,
      ∃ j j', simulateK p.1 (sdh * 60) jd fp oc op g j = (some p.2, j') := by
  obtain ⟨h1, h2⟩ := sweepAux_complete (sdh * 60) jd fp oc op g
    (List.range' minQ (maxQ + 1 - minQ)) 0 hok
  refine ⟨h1, ?_, h2⟩
  rw [show (sweep minQ maxQ sdh jd fp oc op g).map Prod.fst
      = List.range' minQ (maxQ + 1 - minQ) from h1]
  exact List.pairwise_lt_range' minQ (maxQ + 1 - minQ) 1

/-- Witness for the amended C7: queue sizes 1 and 2, one simulated hour,
`jobDuration = 1`, `failureProbability = -1`, constant draw `0` — every
invocation succeeds, and the sweep lists sizes `[1, 2]` in ascending
order. -/
theorem sweep_driver_amended_witness :
    (sweep 1 2 1 1 (-1) 0 0 (fun _ => 0)).map Prod.fst
      = List.range' 1 (2 + 1 - 1) ∧
    List.Pairwise (· < ·) ((sweep 1 2 1 1 (-1) 0 0 (fun _ => 0)).map Prod.fst) := by
  have hok : ∀ q ∈ List.range' 1 (2 + 1 - 1), ∀ j,
      (simulateK q (1 * 60) 1 (-1) 0 0 (fun _ => 0) j).1 ≠ none := by
    intro q hq j
    have hq1 : 1 ≤ q := (List.mem_range'_1.mp hq).1
    exact simulateK_ne_none_of_no_failure q (1 * 60) 1 (-1) 0 0 (fun _ => 0) j
      hq1 (by norm_num) (by norm_num) (fun n => by norm_num)
  obtain ⟨h1, h2, h3⟩ := sweep_driver_amended 1 2 1 1 (-1) 0 0 (fun _ => 0) hok
  exact ⟨h1, h2⟩

/-- C8: under the preconditions `simDuration > 0` and `jobDuration > 0`, no
division in `simulate_throughput` divides by zero: at loop exit the elapsed
time is at least `jobDuration`, so `totalElapsed / 60` is nonzero in the two
rate computations, and the per-round wait-time divisor
`jobsCompleted / jobDuration` — only evaluated under the guard
`jobsCompleted > 0` — is nonzero as well. -/
theorem no_division_by_zero (qs sd jd oc : ℕ) (fp op : ℚ) (g : ℕ → ℚ)
    (hjd : 0 < jd) (hsd : 0 < sd) :
    jd ≤ (finalState qs sd jd fp oc op g 0).totalTime ∧
    (((finalState qs sd jd fp oc op g 0).totalTime : ℚ) / 60) ≠ 0 ∧
    ∀ k, 0 < (scanSlots fp g k qs).1 →
      ((scanSlots fp g k qs).1 : ℚ) / (jd : ℚ) ≠ 0 := by
  have htt := simLoop_totalTime qs sd jd fp oc op g hjd sd (initState 0) (by omega)
  have hR : 1 ≤ (sd - (initState 0).totalTime + jd - 1) / jd := by
    rw [Nat.one_le_div_iff hjd]
    have h0 : (initState 0).totalTime = 0 := rfl
    omega
  have hjdtt : jd ≤ (finalState qs sd jd fp oc op g 0).totalTime := by
    have hmul : 1 * jd ≤ ((sd - (initState 0).totalTime + jd - 1) / jd) * jd :=
      Nat.mul_le_mul_right jd hR
    have heq : (finalState qs sd jd fp oc op g 0).totalTime
        = (initState 0).totalTime
          + ((sd - (initState 0).totalTime + jd - 1) / jd) * jd := htt
    omega
  refine ⟨hjdtt, ?_, ?_⟩
  · have hpos : (0 : ℚ) < ((finalState qs sd jd fp oc op g 0).totalTime : ℚ) := by
      have : 0 < (finalState qs sd jd fp oc op g 0).totalTime := by omega
      exact_mod_cast this
    exact div_ne_zero (ne_of_gt hpos) (by norm_num)
  · intro k hk
    have hcQ : (0 : ℚ) < ((scanSlots fp g k qs).1 : ℚ) := by exact_mod_cast hk
    have hjdQ : (0 : ℚ) < ((jd : ℕ) : ℚ) := by exact_mod_cast hjd
    exact div_ne_zero (ne_of_gt hcQ) (ne_of_gt hjdQ)

/-- Witness for C8 at `queueSize = 1`, `simDuration = 2`, `jobDuration = 2`,
`failureProbability = 1`, constant draw `0`. -/
theorem no_division_by_zero_witness :
    2 ≤ (finalState 1 2 2 1 0 0 (fun _ => 0) 0).totalTime ∧
    (((finalState 1 2 2 1 0 0 (fun _ => 0) 0).totalTime : ℚ) / 60) ≠ 0 ∧
    (0 < (scanSlots 1 (fun _ => (0:ℚ)) 3 1).1 →
      ((scanSlots 1 (fun _ => (0:ℚ)) 3 1).1 : ℚ) / ((2:ℕ) : ℚ) ≠ 0) := by
  obtain ⟨h1, h2, h3⟩ := no_division_by_zero 1 2 2 0 1 0 (fun _ => 0)
    (by norm_num) (by norm_num)
  exact ⟨h1, h2, h3 3⟩

/-- With `jobs_waiting_to_enter = 0` a round is unaffected by the overflow
probability: the overflow branch adds `0` either way. -/
theorem roundStep_oc_zero_op_irrelevant (qs jd : ℕ) (fp op op' : ℚ)
    (g : ℕ → ℚ) (st : SimState) :
    roundStep qs jd fp 0 op g st = roundStep qs jd fp 0 op' g st := by
  unfold roundStep
  dsimp only
  simp only [ite_self]

/-- With `jobs_waiting_to_enter = 0` the whole loop is unaffected by the
overflow probability. -/
theorem simLoop_oc_zero_op_irrelevant (qs sd jd : ℕ) (fp op op' : ℚ)
    (g : ℕ → ℚ) :
    ∀ fuel st, simLoop qs sd jd fp 0 op g fuel st
      = simLoop qs sd jd fp 0 op' g fuel st := by
  intro fuel
  induction fuel with
  | zero => intro st; rfl
  | succ fuel ih =>
    intro st
    simp only [simLoop]
    split
    · rw [roundStep_oc_zero_op_irrelevant qs jd fp op op' g st]
      exact ih _
    · rfl

/-- C9: with `jobs_waiting_to_enter = 0`, the result of
`simulate_throughput` (and even the number of draws consumed) is independent
of `jobs_waiting_to_enter_probability`: on the same draw stream, two runs
differing only in that probability return the same tuple, since the
overflow draw is consumed in every round with `jobsCompleted > 0` either way
and the taken branch only ever adds `0` to the population. -/
theorem overflow_prob_noninterference (qs sd jd : ℕ) (fp op op' : ℚ)
    (g : ℕ → ℚ) (k : ℕ) :
    simulateK qs sd jd fp 0 op g k = simulateK qs sd jd fp 0 op' g k ∧
    simulate_throughput qs sd jd fp 0 op g
      = simulate_throughput qs sd jd fp 0 op' g := by
  have hfs : finalState qs sd jd fp 0 op g k = finalState qs sd jd fp 0 op' g k := by
    unfold finalState
    exact simLoop_oc_zero_op_irrelevant qs sd jd fp op op' g sd (initState k)
  have hfs0 : finalState qs sd jd fp 0 op g 0 = finalState qs sd jd fp 0 op' g 0 := by
    unfold finalState
    exact simLoop_oc_zero_op_irrelevant qs sd jd fp op op' g sd (initState 0)
  constructor
  · unfold simulateK
    rw [hfs]
  · unfold simulate_throughput simulateK
    rw [hfs0]

/-- C10: every recorded wait-time sample is at least `jobDuration` (the
effective population is at least `queueSize ≥ jobsCompleted`), and hence the
unrounded mean and median over a non-empty sample list are at least
`jobDuration` as well. -/
theorem wait_samples_at_least_job_duration (qs sd jd oc : ℕ) (fp op : ℚ)
    (g : ℕ → ℚ) (hjd : 0 < jd) :
    (∀ x ∈ (finalState qs sd jd fp oc op g 0).waitTimes, (jd : ℚ) ≤ x) ∧
    ((finalState qs sd jd fp oc op g 0).waitTimes ≠ [] →
      (jd : ℚ) ≤ mean (finalState qs sd jd fp oc op g 0).waitTimes ∧
      (jd : ℚ) ≤ median (finalState qs sd jd fp oc op g 0).waitTimes) := by
  have hjdQ : (0 : ℚ) < ((jd : ℕ) : ℚ) := by exact_mod_cast hjd
  have hall : ∀ x ∈ (finalState qs sd jd fp oc op g 0).waitTimes, (jd : ℚ) ≤ x := by
    have hinv := simLoop_invariant qs sd jd fp oc op g
      (fun st => ∀ x ∈ st.waitTimes, (jd : ℚ) ≤ x)
      ?_ sd (initState 0) ?_
    · exact hinv
    · intro st hP
      by_cases hc : 0 < (scanSlots fp g st.idx qs).1
      · rw [roundStep_waitTimes_of_pos qs jd fp oc op g st hc]
        intro x hx
        rcases List.mem_append.mp hx with hold | hnew
        · exact hP x hold
        · rw [List.mem_singleton.mp hnew]
          have hcQ : (0 : ℚ) < ((scanSlots fp g st.idx qs).1 : ℚ) := by
            exact_mod_cast hc
          have hle : ((scanSlots fp g st.idx qs).1 : ℚ)
              ≤ ((qs + (if g (scanSlots fp g st.idx qs).2 ≤ op then oc else 0) : ℕ) : ℚ) := by
            have h1 : (scanSlots fp g st.idx qs).1
                ≤ qs + (if g (scanSlots fp g st.idx qs).2 ≤ op then oc else 0) :=
              le_trans (scanSlots_fst_le fp g qs st.idx) (Nat.le_add_right _ _)
            exact_mod_cast h1
          rw [div_div_eq_mul_div, le_div_iff₀ hcQ]
          nlinarith
      · rw [roundStep_waitTimes_of_zero qs jd fp oc op g st (by omega)]
        exact hP
    · intro x hx
      simp [initState] at hx
  refine ⟨hall, fun hne => ⟨le_mean_of_forall_le _ _ hne hall,
    le_median_of_forall_le _ _ hne hall⟩⟩

/-- Witness for C10 at `queueSize = 1`, `simDuration = 2`,
`jobDuration = 2`, `failureProbability = -1`, constant draw `0`: the single
sample is `1 / (1/2) = 2 = jobDuration`, so sample, mean, and median all
attain the bound. -/
theorem wait_samples_at_least_job_duration_witness :
    ((2 : ℕ) : ℚ) ≤ (2 : ℚ) ∧
    ((2 : ℕ) : ℚ) ≤ mean (finalState 1 2 2 (-1) 0 0 (fun _ => 0) 0).waitTimes ∧
    ((2 : ℕ) : ℚ) ≤ median (finalState 1 2 2 (-1) 0 0 (fun _ => 0) 0).waitTimes := by
  obtain ⟨h1, h2⟩ := wait_samples_at_least_job_duration 1 2 2 0 (-1) 0
    (fun _ => 0) (by norm_num)
  have hne : (finalState 1 2 2 (-1) 0 0 (fun _ => 0) 0).waitTimes ≠ [] := by
    norm_num [finalState, simLoop, roundStep, scanSlots, initState]
  have hmem : (2 : ℚ) ∈ (finalState 1 2 2 (-1) 0 0 (fun _ => 0) 0).waitTimes := by
    norm_num [finalState, simLoop, roundStep, scanSlots, initState]
  exact ⟨h1 2 hmem, (h2 hne).1, (h2 hne).2⟩

end MergeQueueSim
